import Mathlib

/-!
Verification development for the ExpAn core: sampling utilities, the
delta/confidence-interval statistics engine, and the binning model.

The repository material at hand is the introductory notebook, which documents
the library's behaviour (function contracts, printed outputs) but does not
contain the implementation of `core.statistics` / `core.binning` themselves.
All operations are therefore modelled from the specification, with external
collaborators (floating-point square root, the t-distribution quantile
function, the bootstrap randomness source) passed in as explicit parameters.
Numbers are exact rationals.
-/

namespace Expan

/-- A sample: an ordered sequence of numbers where `none` is the missing
marker (NaN). -/
abbrev Sample := List (Option ℚ)

/-- Modelled from the spec: `clean` for a single (unpaired) sample drops
exactly the missing positions and keeps the remaining values in order. -/
def cleanOne (s : Sample) : List ℚ := s.filterMap id

/-- Modelled from the spec: paired cleaning removes every position where any
of the two aligned samples has a missing value. -/
def cleanAligned (x y : Sample) : List ℚ × List ℚ :=
  let pairs := (x.zip y).filterMap (fun ab =>
    match ab with
    | (some a, some b) => some (a, b)
    | _ => none)
  (pairs.map Prod.fst, pairs.map Prod.snd)

/-- Arithmetic mean; `0` on the empty list (guarded by validation in `delta`). -/
def mean (l : List ℚ) : ℚ := l.sum / l.length

/-- Population variance (ddof = 0). -/
def popVar (l : List ℚ) : ℚ :=
  ((l.map (fun v => (v - mean l) ^ 2)).sum) / l.length

/-- Sample variance (ddof = 1); the rational convention `q / 0 = 0` covers
singleton lists. -/
def sampleVar (l : List ℚ) : ℚ :=
  ((l.map (fun v => (v - mean l) ^ 2)).sum) / ((l.length : ℚ) - 1)

/-- Squared Welch standard error of the difference of two sample means. -/
def seSq (x y : List ℚ) : ℚ :=
  sampleVar x / x.length + sampleVar y / y.length

/-- Modelled from the spec: empirical percentile with linear interpolation
(numpy-style) over an already sorted list. -/
def percentileInterp (l : List ℚ) (p : ℚ) : ℚ :=
  match l with
  | [] => 0
  | _ :: _ =>
    let n := l.length
    let r : ℚ := p * ((n : ℚ) - 1) / 100
    let i : ℕ := min (n - 1) (⌊r⌋.toNat)
    let lo := l.getD i 0
    let hi := l.getD (min (n - 1) (i + 1)) 0
    lo + (r - (i : ℚ)) * (hi - lo)

/-- Modelled from the spec: the closed-form confidence interval reports, for
each requested percentile `p`, the value `delta + tppf p * se`, where `tppf`
is the external t-distribution quantile function at the Welch–Satterthwaite
degrees of freedom. -/
def closedFormCI (tppf : ℚ → ℚ) (ps : List ℚ) (d se : ℚ) : List (ℚ × ℚ) :=
  ps.map (fun p => (p, d + tppf p * se))

/-- One bootstrap resample: sampling with replacement, same size as the
original, indices drawn from the explicit randomness stream `f`. -/
def resample (s : List ℚ) (f : ℕ → ℕ) : List ℚ :=
  (List.range s.length).map (fun j => s.getD (f j % s.length) 0)

/-- Modelled from the spec: the bootstrap distribution of deltas — for each of
`n` iterations, the difference of the means of independent resamples of the
two samples. -/
def bootstrapDeltas (randT randC : ℕ → ℕ → ℕ) (x y : List ℚ) (n : ℕ) :
    List ℚ :=
  (List.range n).map (fun k =>
    mean (resample x (randT k)) - mean (resample y (randC k)))

/-- Modelled from the spec: the bootstrap confidence interval reports, for
each requested percentile, the empirical percentile of the bootstrap delta
distribution. -/
def bootstrapCI (randT randC : ℕ → ℕ → ℕ) (x y : List ℚ) (ps : List ℚ)
    (n : ℕ) : List (ℚ × ℚ) :=
  let sorted := List.insertionSort (· ≤ ·) (bootstrapDeltas randT randC x y n)
  ps.map (fun p => (p, percentileInterp sorted p))

/-- Advisory warnings attached to a result; they never stop computation. -/
inductive StatWarning
  | varianceHeterogeneity
deriving DecidableEq

/-- Distinguishable validation errors of `delta`. -/
inductive DeltaError
  | emptySample
  | invalidPercentiles
  | invalidBootstrapCount
deriving DecidableEq

/-- The outcome of comparing a treatment sample against a control sample. -/
structure DeltaResult where
  delta : ℚ
  confidence_interval : List (ℚ × ℚ)
  treatment_sample_size : ℕ
  control_sample_size : ℕ
  treatment_mean : ℚ
  control_mean : ℚ
  warnings : List StatWarning
deriving DecidableEq

instance : DecidableEq (Except DeltaError DeltaResult) := fun x y =>
  match x, y with
  | .error a, .error b => decidable_of_iff (a = b) (by simp)
  | .error _, .ok _ => isFalse (by simp)
  | .ok _, .error _ => isFalse (by simp)
  | .ok a, .ok b => decidable_of_iff (a = b) (by simp)

/-- A percentile list is valid when it is nonempty and every entry lies in
`[0, 100]`. -/
def percentilesOK (ps : List ℚ) : Bool :=
  !ps.isEmpty && ps.all (fun p => decide (0 ≤ p) && decide (p ≤ 100))

/-- Modelled from the spec: the fixed variance-heterogeneity threshold. -/
def heterogeneityThreshold : ℚ := 4

/-- Modelled from the spec: the advisory check that the ratio of the two
sample variances exceeds the fixed threshold (stated multiplicatively to
avoid division). -/
def varianceHeterogeneous (x y : List ℚ) : Bool :=
  decide (popVar x > heterogeneityThreshold * popVar y) ||
    decide (popVar y > heterogeneityThreshold * popVar x)

/-- Modelled from the spec: `delta(treatment, control, percentiles,
assume_normal, n_bootstrap_samples)`.  External collaborators are explicit
parameters: `sqrtFn` (square root as computed by the platform), `tppf`
(t-distribution quantile at a given percentile), `randT` / `randC` (bootstrap
randomness: index stream per iteration). -/
def delta (sqrtFn tppf : ℚ → ℚ) (randT randC : ℕ → ℕ → ℕ)
    (treatment control : Sample) (ps : List ℚ)
    (assumeNormal : Bool) (nBootstrap : ℕ) : Except DeltaError DeltaResult :=
  if (cleanOne treatment).isEmpty || (cleanOne control).isEmpty then
    .error .emptySample
  else if !percentilesOK ps then .error .invalidPercentiles
  else if !assumeNormal && nBootstrap == 0 then .error .invalidBootstrapCount
  else
    .ok { delta := mean (cleanOne treatment) - mean (cleanOne control),
          confidence_interval :=
            if assumeNormal then
              closedFormCI tppf ps
                (mean (cleanOne treatment) - mean (cleanOne control))
                (sqrtFn (seSq (cleanOne treatment) (cleanOne control)))
            else bootstrapCI randT randC (cleanOne treatment)
              (cleanOne control) ps nBootstrap,
          treatment_sample_size := (cleanOne treatment).length,
          control_sample_size := (cleanOne control).length,
          treatment_mean := mean (cleanOne treatment),
          control_mean := mean (cleanOne control),
          warnings :=
            if assumeNormal &&
                varianceHeterogeneous (cleanOne treatment) (cleanOne control)
            then [StatWarning.varianceHeterogeneity] else [] }

/-- The default percentile list: the two-sided 95% interval. -/
def defaultPercentiles : List ℚ := [5 / 2, 195 / 2]

/-- Modelled from the spec: calling `delta` without an explicit percentiles
argument uses the two-sided 95% default. -/
def deltaDefault (sqrtFn tppf : ℚ → ℚ) (randT randC : ℕ → ℕ → ℕ)
    (treatment control : Sample) (assumeNormal : Bool) (nBootstrap : ℕ) :
    Except DeltaError DeltaResult :=
  delta sqrtFn tppf randT randC treatment control defaultPercentiles
    assumeNormal nBootstrap

/-- A fitted numerical binning: `K + 1` boundary thresholds defining `K`
ordered bins, plus the implicit catch-all bin for everything outside. -/
structure NumericalBinning where
  boundaries : List ℚ
deriving DecidableEq

/-- Modelled from the spec: `create_binning` / `fit_numerical` — quantile-like
boundary thresholds over the cleaned, sorted reference sample, deduplicated so
that the kept boundaries are strictly increasing (a constant reference sample
degenerates to a single boundary, i.e. a catch-all-only partition). -/
def create_binning (ref : Sample) (nBins : ℕ) : NumericalBinning :=
  let sorted := List.insertionSort (· ≤ ·) (cleanOne ref)
  let cuts := (List.range (nBins + 1)).map
    (fun (j : ℕ) => percentileInterp sorted (100 * (j : ℚ) / (nBins : ℚ)))
  ⟨cuts.destutter (· < ·)⟩

/-- Bin `i` covers `[boundary i, boundary (i+1))`, except the last numeric bin
(`i + 2 = boundaries.length`), which is closed on the upper end. -/
def covers (b : List ℚ) (i : ℕ) (x : ℚ) : Prop :=
  ∃ lo hi, b[i]? = some lo ∧ b[i + 1]? = some hi ∧ lo ≤ x ∧
    (if i + 2 = b.length then x ≤ hi else x < hi)

/-- Ordered boundary search: the index of the bin covering `x`, or `none` for
the catch-all bin. -/
def assignBinAux (x : ℚ) : List ℚ → ℕ → Option ℕ
  | lo :: hi :: rest, i =>
    if lo ≤ x ∧ (if rest.isEmpty then x ≤ hi else x < hi) then some i
    else assignBinAux x (hi :: rest) (i + 1)
  | _, _ => none

/-- The bin index assigned to a value by a fitted binning (`none` = catch-all). -/
def assignBin (B : NumericalBinning) (x : ℚ) : Option ℕ :=
  assignBinAux x B.boundaries 0

/-- Modelled from the spec: `label` locates each value's covering bin via
ordered boundary search; values outside the fitted boundaries map to the
catch-all bin. -/
def label (B : NumericalBinning) (s : List ℚ) : List (Option ℕ) :=
  s.map (assignBin B)

/-- Modelled from the spec: a label call observed together with the binning
state it leaves behind — no refitting occurs, so the state after the call is
the binning itself. -/
def labelCall (B : NumericalBinning) (s : List ℚ) :
    List (Option ℕ) × NumericalBinning :=
  (label B s, B)

/-- A formatting template for rendering a bin. -/
inductive Template
  | interval
  | conditions
  | iterLabel
deriving DecidableEq

/-- The rendered form of one bin, as structured tokens. -/
inductive RenderedBin
  | interval (lo up : ℚ) (upClosed : Bool)
  | conditions (lo up : ℚ) (upClosed : Bool)
  | iterLabel (display : ℕ)
deriving DecidableEq

/-- Modelled from the spec: rendering one bin is a pure function of the bin
index, its lower and upper bounds, its closedness, and the per-bin display
label, selected by the template. -/
def formatBin (t : Template) (idx : ℕ) (lo up : ℚ) (upClosed : Bool) :
    RenderedBin :=
  match t with
  | .interval => .interval lo up upClosed
  | .conditions => .conditions lo up upClosed
  | .iterLabel => .iterLabel idx

/-- Modelled from the spec: `__str__(template)` renders every bin of the
binning and returns the binning state it leaves behind (unchanged —
formatting never refits). -/
def strCall (B : NumericalBinning) (t : Template) :
    List RenderedBin × NumericalBinning :=
  let k := B.boundaries.length - 1
  ((List.range k).map (fun i =>
    formatBin t i (B.boundaries.getD i 0) (B.boundaries.getD (i + 1) 0)
      (decide (i + 2 = B.boundaries.length))), B)

/-- Labels rendered through a template, keeping the underlying bin index. -/
def labelFormatted (B : NumericalBinning) (t : Template) (s : List ℚ) :
    List (Option (ℕ × RenderedBin)) :=
  s.map (fun v => (assignBin B v).map (fun i =>
    (i, formatBin t i (B.boundaries.getD i 0) (B.boundaries.getD (i + 1) 0)
      (decide (i + 2 = B.boundaries.length)))))

/-! ### Helper lemmas -/

theorem cleanOne_map_some (s : Sample) :
    (cleanOne s).map some = s.filter (fun o => o.isSome) := by
  induction s with
  | nil => rfl
  | cons h t ih => cases h <;> simp [cleanOne, List.filterMap_cons] at ih ⊢ <;> simpa using ih

theorem filterMap_pair_eq_filter (l : List (Option ℚ × Option ℚ)) :
    ((l.filterMap (fun ab => match ab with
        | (some a, some b) => some (a, b)
        | _ => none)).map (fun ab => (some ab.1, some ab.2)))
      = l.filter (fun ab => ab.1.isSome && ab.2.isSome) := by
  induction l with
  | nil => rfl
  | cons h t ih =>
    obtain ⟨oa, ob⟩ := h
    cases oa <;> cases ob <;> simp [List.filterMap_cons, List.filter_cons, ih]

theorem percentilesOK_iff (ps : List ℚ) :
    percentilesOK ps = true ↔ (ps ≠ [] ∧ ∀ p ∈ ps, 0 ≤ p ∧ p ≤ 100) := by
  simp [percentilesOK]

theorem percentilesOK_false_iff (ps : List ℚ) :
    percentilesOK ps = false ↔ (ps = [] ∨ ∃ p ∈ ps, p < 0 ∨ 100 < p) := by
  rw [← Bool.not_eq_true, percentilesOK_iff]
  constructor
  · intro h
    by_cases hps : ps = []
    · exact Or.inl hps
    · right
      have hnall : ¬ ∀ p ∈ ps, 0 ≤ p ∧ p ≤ 100 := fun hall => h ⟨hps, hall⟩
      push_neg at hnall
      obtain ⟨p, hp, hnp⟩ := hnall
      by_cases h0 : 0 ≤ p
      · exact ⟨p, hp, Or.inr (hnp h0)⟩
      · exact ⟨p, hp, Or.inl (not_le.mp h0)⟩
  · rintro (rfl | ⟨p, hp, hlt⟩)
    · exact fun h => h.1 rfl
    · rintro ⟨-, hall⟩
      rcases hlt with hlt | hlt
      · exact absurd (hall p hp).1 (not_le.mpr hlt)
      · exact absurd (hall p hp).2 (not_le.mpr hlt)

/-- Anatomy of a successful `delta` call: validation passed and the result's
fields are the computed statistics. -/
theorem delta_ok_elim (sqrtFn tppf : ℚ → ℚ) (randT randC : ℕ → ℕ → ℕ)
    (t c : Sample) (ps : List ℚ) (an : Bool) (n : ℕ) (r : DeltaResult)
    (hres : delta sqrtFn tppf randT randC t c ps an n = .ok r) :
    percentilesOK ps = true ∧
    cleanOne t ≠ [] ∧ cleanOne c ≠ [] ∧
    r.delta = mean (cleanOne t) - mean (cleanOne c) ∧
    r.confidence_interval = (if an then
        closedFormCI tppf ps (mean (cleanOne t) - mean (cleanOne c))
          (sqrtFn (seSq (cleanOne t) (cleanOne c)))
      else bootstrapCI randT randC (cleanOne t) (cleanOne c) ps n) ∧
    r.warnings = (if an && varianceHeterogeneous (cleanOne t) (cleanOne c)
      then [StatWarning.varianceHeterogeneity] else []) := by
  unfold delta at hres
  by_cases h1 : (cleanOne t).isEmpty || (cleanOne c).isEmpty
  · rw [if_pos h1] at hres; exact absurd hres (by simp)
  · rw [if_neg h1] at hres
    by_cases h2 : !percentilesOK ps
    · rw [if_pos (by simp [h2])] at hres; exact absurd hres (by simp)
    · rw [if_neg (by simp_all)] at hres
      by_cases h3 : !an && n == 0
      · rw [if_pos h3] at hres; exact absurd hres (by simp)
      · rw [if_neg (by simp_all)] at hres
        rw [Except.ok.injEq] at hres
        subst hres
        simp only [Bool.or_eq_true, List.isEmpty_eq_true, not_or] at h1
        exact ⟨by simpa using h2, h1.1, h1.2, rfl, rfl, rfl⟩

theorem closedFormCI_map_fst (tppf : ℚ → ℚ) (ps : List ℚ) (d se : ℚ) :
    (closedFormCI tppf ps d se).map Prod.fst = ps := by
  simp [closedFormCI, List.map_map, Function.comp_def]

theorem bootstrapCI_map_fst (randT randC : ℕ → ℕ → ℕ) (x y : List ℚ)
    (ps : List ℚ) (n : ℕ) :
    (bootstrapCI randT randC x y ps n).map Prod.fst = ps := by
  simp [bootstrapCI, List.map_map, Function.comp_def]

/-- In the closed-form interval, the values for a percentile pair
`(p, 100 - p)` sum to `2 * delta` when the quantile function is odd about
the median. -/
theorem closedFormCI_pair_sum (tppf : ℚ → ℚ) (ps : List ℚ) (d se p v1 v2 : ℚ)
    (hodd : ∀ q : ℚ, tppf (100 - q) = - tppf q)
    (h1 : (p, v1) ∈ closedFormCI tppf ps d se)
    (h2 : (100 - p, v2) ∈ closedFormCI tppf ps d se) :
    v1 + v2 = 2 * d := by
  simp only [closedFormCI, List.mem_map, Prod.mk.injEq] at h1 h2
  obtain ⟨q1, -, hq1, hv1⟩ := h1
  obtain ⟨q2, -, hq2, hv2⟩ := h2
  rw [← hv1, ← hv2, hq1, hq2, hodd p]
  ring

theorem assignBinAux_shift (x : ℚ) :
    ∀ (l : List ℚ) (i : ℕ),
      assignBinAux x l i = (assignBinAux x l 0).map (fun j => j + i)
  | [], _ => rfl
  | [_], _ => rfl
  | lo :: hi :: rest, i => by
    simp only [assignBinAux]
    by_cases hcond : lo ≤ x ∧ (if rest.isEmpty then x ≤ hi else x < hi)
    · rw [if_pos hcond, if_pos hcond]
      simp
    · rw [if_neg hcond, if_neg hcond]
      rw [assignBinAux_shift x (hi :: rest) (i + 1),
        assignBinAux_shift x (hi :: rest) 1, Option.map_map]
      congr 1
      funext j
      simp only [Function.comp_apply]
      omega

theorem covers_cons (a : ℚ) (b : List ℚ) (i : ℕ) (x : ℚ) :
    covers (a :: b) (i + 1) x ↔ covers b i x := by
  unfold covers
  have hlen : ((i + 1) + 2 = (a :: b).length) ↔ (i + 2 = b.length) := by
    simp only [List.length_cons]
    omega
  constructor
  · rintro ⟨lo, hi, h1, h2, h3, h4⟩
    exact ⟨lo, hi, by simpa using h1, by simpa using h2, h3,
      (if_congr hlen rfl rfl) ▸ h4⟩
  · rintro ⟨lo, hi, h1, h2, h3, h4⟩
    exact ⟨lo, hi, by simpa using h1, by simpa using h2, h3,
      (if_congr hlen rfl rfl).symm ▸ h4⟩

theorem covers_zero (lo hi : ℚ) (rest : List ℚ) (x : ℚ) :
    covers (lo :: hi :: rest) 0 x ↔
      (lo ≤ x ∧ (if rest.isEmpty then x ≤ hi else x < hi)) := by
  unfold covers
  have hlen : ((0 : ℕ) + 2 = (lo :: hi :: rest).length) ↔
      (rest.isEmpty = true) := by
    simp only [List.length_cons, List.isEmpty_eq_true, ← List.length_eq_zero]
    omega
  constructor
  · rintro ⟨lo', hi', h1, h2, h3, h4⟩
    simp only [List.getElem?_cons_zero, List.getElem?_cons_succ,
      Option.some.injEq] at h1 h2
    subst h1
    subst h2
    exact ⟨h3, (if_congr hlen rfl rfl) ▸ h4⟩
  · rintro ⟨h3, h4⟩
    exact ⟨lo, hi, by simp, by simp, h3, (if_congr hlen rfl rfl).symm ▸ h4⟩

/-- The ordered boundary search returns `some i` exactly when bin `i` covers
the value, for strictly increasing boundaries. -/
theorem assignBinAux_some_iff (x : ℚ) :
    ∀ (b : List ℚ), b.Pairwise (· < ·) →
      ∀ i, (assignBinAux x b 0 = some i ↔ covers b i x)
  | [], _, i => by
    simp [assignBinAux, covers]
  | [a], _, i => by
    simp [assignBinAux, covers]
  | lo :: hi :: rest, hp, i => by
    cases i with
    | zero =>
      rw [covers_zero]
      simp only [assignBinAux]
      by_cases hcond : lo ≤ x ∧ (if rest.isEmpty then x ≤ hi else x < hi)
      · rw [if_pos hcond]
        exact ⟨fun _ => hcond, fun _ => rfl⟩
      · rw [if_neg hcond, assignBinAux_shift]
        constructor
        · intro h
          obtain ⟨k, -, hk⟩ := Option.map_eq_some'.mp h
          omega
        · intro h
          exact absurd h hcond
    | succ j =>
      rw [covers_cons]
      simp only [assignBinAux]
      have htail := assignBinAux_some_iff x (hi :: rest) hp.of_cons j
      by_cases hcond : lo ≤ x ∧ (if rest.isEmpty then x ≤ hi else x < hi)
      · rw [if_pos hcond]
        constructor
        · intro h
          exact absurd h (by simp)
        · intro hcov
          exfalso
          obtain ⟨lo', hi', h1, h2, h3, h4⟩ := hcov
          have hrest : rest ≠ [] := by
            intro hr
            subst hr
            simp at h2
          have hhx : hi ≤ x := by
            cases j with
            | zero =>
              simp only [List.getElem?_cons_zero, Option.some.injEq] at h1
              rw [h1]
              exact h3
            | succ k =>
              simp only [List.getElem?_cons_succ] at h1
              have hmem : lo' ∈ rest := List.getElem?_mem h1
              have hlt := (List.pairwise_cons.mp hp.of_cons).1 lo' hmem
              linarith
          have hx2 := hcond.2
          rw [if_neg (by simp [hrest])] at hx2
          linarith
      · rw [if_neg hcond, assignBinAux_shift]
        constructor
        · intro h
          obtain ⟨k, hk, hkk⟩ := Option.map_eq_some'.mp h
          obtain rfl : k = j := by omega
          exact htail.mp hk
        · intro hcov
          rw [htail.mpr hcov]
          rfl

theorem getD_sorted_mono {l : List ℚ} (hs : l.Sorted (· ≤ ·)) {i j : ℕ}
    (hij : i ≤ j) (hj : j < l.length) : l.getD i 0 ≤ l.getD j 0 := by
  have hi : i < l.length := lt_of_le_of_lt hij hj
  rw [List.getD_eq_getElem?_getD, List.getD_eq_getElem?_getD,
    List.getElem?_eq_getElem hi, List.getElem?_eq_getElem hj]
  simpa [List.get_eq_getElem] using
    hs.rel_get_of_le (a := ⟨i, hi⟩) (b := ⟨j, hj⟩) (Fin.mk_le_mk.mpr hij)

theorem getElem?_le_getLast {l : List ℚ} (hp : l.Pairwise (· < ·))
    {k : ℕ} {v m : ℚ} (hv : l[k]? = some v) (hm : l.getLast? = some m) :
    v ≤ m := by
  have hs : l.Sorted (· ≤ ·) := hp.imp le_of_lt
  obtain ⟨hk, rfl⟩ := List.getElem?_eq_some.mp hv
  rw [List.getLast?_eq_getElem?] at hm
  obtain ⟨hlen, hml⟩ := List.getElem?_eq_some.mp hm
  rw [← hml]
  have h1 := getD_sorted_mono hs (Nat.le_sub_one_of_lt hk) hlen
  rwa [List.getD_eq_getElem?_getD, List.getD_eq_getElem?_getD,
    List.getElem?_eq_getElem hk, List.getElem?_eq_getElem hlen] at h1

theorem getElem?_ge_head {l : List ℚ} (hp : l.Pairwise (· < ·))
    {k : ℕ} {v m : ℚ} (hv : l[k]? = some v) (hm : l[0]? = some m) :
    m ≤ v := by
  have hs : l.Sorted (· ≤ ·) := hp.imp le_of_lt
  obtain ⟨hk, rfl⟩ := List.getElem?_eq_some.mp hv
  obtain ⟨hlen, hml⟩ := List.getElem?_eq_some.mp hm
  rw [← hml]
  have h1 := getD_sorted_mono hs (Nat.zero_le k) hk
  rwa [List.getD_eq_getElem?_getD, List.getD_eq_getElem?_getD,
    List.getElem?_eq_getElem hk, List.getElem?_eq_getElem hlen] at h1

/-- Monotonicity of numpy-style interpolated percentiles over a sorted list,
for percentiles within `[0, 100]`. -/
theorem percentileInterp_mono (l : List ℚ) (hs : l.Sorted (· ≤ ·))
    (p1 p2 : ℚ) (hp0 : 0 ≤ p1) (hp12 : p1 ≤ p2) (hp100 : p2 ≤ 100) :
    percentileInterp l p1 ≤ percentileInterp l p2 := by
  cases l with
  | nil => simp [percentileInterp]
  | cons a t =>
    have hp20 : 0 ≤ p2 := le_trans hp0 hp12
    have hp1100 : p1 ≤ 100 := le_trans hp12 hp100
    simp only [percentileInterp]
    set L := a :: t with hL
    set n := L.length with hn
    have hn1 : 1 ≤ n := by simp [hn, hL]
    have hnq : ((n - 1 : ℕ) : ℚ) = (n : ℚ) - 1 := by
      rw [Nat.cast_sub hn1, Nat.cast_one]
    have hc : (0 : ℚ) ≤ (n : ℚ) - 1 := by
      have h1 : (1 : ℚ) ≤ (n : ℚ) := by exact_mod_cast hn1
      linarith
    have key : ∀ p : ℚ, 0 ≤ p → p ≤ 100 →
        ⌊p * ((n : ℚ) - 1) / 100⌋.toNat ≤ n - 1 ∧
        ((⌊p * ((n : ℚ) - 1) / 100⌋.toNat : ℚ) ≤ p * ((n : ℚ) - 1) / 100) ∧
        (p * ((n : ℚ) - 1) / 100 <
          (⌊p * ((n : ℚ) - 1) / 100⌋.toNat : ℚ) + 1) := by
      intro p h0 h100
      have hrnn : 0 ≤ p * ((n : ℚ) - 1) / 100 := by positivity
      have hrle : p * ((n : ℚ) - 1) / 100 ≤ (n : ℚ) - 1 := by
        rw [div_le_iff₀ (by norm_num : (0 : ℚ) < 100)]
        nlinarith
      have hfl0 : 0 ≤ ⌊p * ((n : ℚ) - 1) / 100⌋ := Int.floor_nonneg.mpr hrnn
      have htn : ((⌊p * ((n : ℚ) - 1) / 100⌋.toNat : ℤ)) =
          ⌊p * ((n : ℚ) - 1) / 100⌋ := Int.toNat_of_nonneg hfl0
      have hcast : ((⌊p * ((n : ℚ) - 1) / 100⌋.toNat : ℚ)) =
          ((⌊p * ((n : ℚ) - 1) / 100⌋ : ℤ) : ℚ) := by
        exact_mod_cast htn
      refine ⟨?_, ?_, ?_⟩
      · refine Int.toNat_le.mpr ?_
        have hfle : ⌊p * ((n : ℚ) - 1) / 100⌋ ≤ ⌊((n - 1 : ℕ) : ℚ)⌋ :=
          Int.floor_mono (by rw [hnq]; exact hrle)
        rwa [Int.floor_natCast] at hfle
      · rw [hcast]
        exact Int.floor_le _
      · rw [hcast]
        exact Int.lt_floor_add_one _
    obtain ⟨hb1, hle1, hlt1⟩ := key p1 hp0 hp1100
    obtain ⟨hb2, hle2, hlt2⟩ := key p2 hp20 hp100
    have hr12 : p1 * ((n : ℚ) - 1) / 100 ≤ p2 * ((n : ℚ) - 1) / 100 := by
      gcongr
    have hi12 : ⌊p1 * ((n : ℚ) - 1) / 100⌋.toNat ≤
        ⌊p2 * ((n : ℚ) - 1) / 100⌋.toNat :=
      Int.toNat_le_toNat (Int.floor_mono hr12)
    rw [min_eq_right hb1, min_eq_right hb2]
    set i1 := ⌊p1 * ((n : ℚ) - 1) / 100⌋.toNat with hi1def
    set i2 := ⌊p2 * ((n : ℚ) - 1) / 100⌋.toNat with hi2def
    have hnpos : 0 < n := lt_of_lt_of_le Nat.zero_lt_one hn1
    have hsub : n - 1 < n := Nat.sub_lt hnpos Nat.one_pos
    have hj1lt : min (n - 1) (i1 + 1) < n := lt_of_le_of_lt (min_le_left _ _) hsub
    have hj2lt : min (n - 1) (i2 + 1) < n := lt_of_le_of_lt (min_le_left _ _) hsub
    have hi1lt : i1 < n := lt_of_le_of_lt hb1 hsub
    have hi2lt : i2 < n := lt_of_le_of_lt hb2 hsub
    have hge1 : L.getD i1 0 ≤ L.getD (min (n - 1) (i1 + 1)) 0 :=
      getD_sorted_mono hs (le_min hb1 (Nat.le_succ i1)) hj1lt
    have hge2 : L.getD i2 0 ≤ L.getD (min (n - 1) (i2 + 1)) 0 :=
      getD_sorted_mono hs (le_min hb2 (Nat.le_succ i2)) hj2lt
    rcases eq_or_lt_of_le hi12 with heq | hlt
    · rw [← heq]
      have hmul := mul_le_mul_of_nonneg_right
        (sub_le_sub_right hr12 (i1 : ℚ))
        (sub_nonneg.mpr hge1)
      linarith
    · have hv1hi : L.getD i1 0 +
          (p1 * ((n : ℚ) - 1) / 100 - (i1 : ℚ)) *
            (L.getD (min (n - 1) (i1 + 1)) 0 - L.getD i1 0) ≤
          L.getD (min (n - 1) (i1 + 1)) 0 := by
        have hmul := mul_le_mul_of_nonneg_right
          (le_of_lt (show p1 * ((n : ℚ) - 1) / 100 - (i1 : ℚ) < 1 by linarith))
          (sub_nonneg.mpr hge1)
        nlinarith
      have hmid : L.getD (min (n - 1) (i1 + 1)) 0 ≤ L.getD i2 0 :=
        getD_sorted_mono hs (le_trans (min_le_right _ _) hlt) hi2lt
      have hv2lo : L.getD i2 0 ≤ L.getD i2 0 +
          (p2 * ((n : ℚ) - 1) / 100 - (i2 : ℚ)) *
            (L.getD (min (n - 1) (i2 + 1)) 0 - L.getD i2 0) := by
        have hmul := mul_nonneg (sub_nonneg.mpr hle2) (sub_nonneg.mpr hge2)
        linarith
      linarith

/-- The interpolated percentile at 100 is the last element of the list. -/
theorem percentileInterp_hundred (l : List ℚ) :
    percentileInterp l 100 = l.getD (l.length - 1) 0 := by
  cases l with
  | nil => simp [percentileInterp]
  | cons a t =>
    simp only [percentileInterp]
    set n := (a :: t).length with hn
    have hn1 : 1 ≤ n := Nat.succ_le_succ (Nat.zero_le _)
    have hnq : ((n - 1 : ℕ) : ℚ) = (n : ℚ) - 1 := by
      rw [Nat.cast_sub hn1, Nat.cast_one]
    have hr : (100 : ℚ) * ((n : ℚ) - 1) / 100 = ((n - 1 : ℕ) : ℚ) := by
      rw [hnq]
      ring
    rw [hr, Int.floor_natCast, Int.toNat_natCast, min_self,
      min_eq_left (Nat.le_succ _)]
    ring

/-! ### Claim theorems -/

/-- C5: `clean` removes exactly the positions with missing values, preserving
the relative order of the remaining elements (for unpaired cleaning the
cleaned list, viewed through `some`, is exactly the filter keeping non-missing
positions; for aligned cleaning the zipped result is exactly the filter of the
zipped input keeping positions where both entries are present), and the spec's
concrete example `[1, NaN, 3, NaN, 5] ↦ [1, 3, 5]` holds. -/
theorem c5_clean_behaviour :
    (∀ s : Sample, (cleanOne s).map some = s.filter (fun o => o.isSome)) ∧
    (∀ x y : Sample,
      ((cleanAligned x y).1.zip ((cleanAligned x y).2)).map
          (fun ab => (some ab.1, some ab.2))
        = (x.zip y).filter (fun ab => ab.1.isSome && ab.2.isSome)) ∧
    cleanOne [some 1, none, some 3, none, some 5] = [1, 3, 5] := by
  refine ⟨cleanOne_map_some, ?_, by decide⟩
  intro x y
  show ((((x.zip y).filterMap _).map Prod.fst).zip
      (((x.zip y).filterMap _).map Prod.snd)).map _ = _
  rw [List.zip_map']
  simpa using filterMap_pair_eq_filter (x.zip y)

/-- C3: for every fitted binning `B` and samples, a `label` call leaves the
binning (hence its boundaries) unchanged — whether applied once or repeatedly,
to the same or to different data — and repeated `label` calls with identical
input and the unmodified binning return identical output sequences. -/
theorem c3_label_immutable :
    ∀ (B : NumericalBinning) (s s2 : List ℚ),
      (labelCall B s).2 = B ∧
      (labelCall (labelCall B s).2 s2).2 = B ∧
      (labelCall B s).2.boundaries = B.boundaries ∧
      (labelCall (labelCall B s2).2 s).1 = (labelCall B s).1 ∧
      (labelCall B s).1 = label B s :=
  fun _ _ _ => ⟨rfl, rfl, rfl, rfl, rfl⟩

/-- C8: changing the formatting template never alters the binning's
boundaries nor the bin index assigned to any value: rendering returns the
binning unchanged, labelling after rendering agrees with labelling before,
and the bin indices underlying template-formatted labels are independent of
the template and coincide with `label`. -/
theorem c8_formatting_pure :
    ∀ (B : NumericalBinning) (t1 t2 : Template) (s : List ℚ),
      (strCall B t1).2.boundaries = B.boundaries ∧
      label (strCall B t1).2 s = label B s ∧
      (labelFormatted B t1 s).map (Option.map Prod.fst)
        = (labelFormatted B t2 s).map (Option.map Prod.fst) ∧
      (labelFormatted B t1 s).map (Option.map Prod.fst) = label B s := by
  intro B t1 t2 s
  refine ⟨rfl, rfl, ?_, ?_⟩ <;>
    simp [labelFormatted, label, Option.map_map, Function.comp_def]

theorem create_binning_pairwise (ref : Sample) (nBins : ℕ) :
    (create_binning ref nBins).boundaries.Pairwise (· < ·) := by
  have h := List.destutter_is_chain' (· < ·)
    ((List.range (nBins + 1)).map (fun (j : ℕ) =>
      percentileInterp (List.insertionSort (· ≤ ·) (cleanOne ref))
        (100 * (j : ℚ) / (nBins : ℚ))))
  exact List.chain'_iff_pairwise.mp h

/-- C2: a fitted NumericalBinning's boundaries are strictly increasing;
`assignBin` assigns bin `i` exactly when the value lies in
`[boundary i, boundary (i+1))` — with the last numeric bin closed on the
upper end — so every value is covered by at most one bin and is assigned
exactly that bin index (catch-all otherwise); and every value outside the
fitted boundaries (beyond the last boundary, or below the first) maps to the
catch-all bin — in particular any value beyond the observed max of the
reference sample. -/
theorem c2_binning_invariants (ref : Sample) (nBins : ℕ) :
    ((create_binning ref nBins).boundaries.Pairwise (· < ·)) ∧
    (∀ x i, assignBin (create_binning ref nBins) x = some i ↔
      covers (create_binning ref nBins).boundaries i x) ∧
    (∀ x i j, covers (create_binning ref nBins).boundaries i x →
      covers (create_binning ref nBins).boundaries j x → i = j) ∧
    (∀ x m, (create_binning ref nBins).boundaries.getLast? = some m →
      m < x → assignBin (create_binning ref nBins) x = none) ∧
    (∀ x m, (create_binning ref nBins).boundaries[0]? = some m →
      x < m → assignBin (create_binning ref nBins) x = none) ∧
    (∀ x, 1 ≤ nBins → cleanOne ref ≠ [] → (∀ v ∈ cleanOne ref, v < x) →
      assignBin (create_binning ref nBins) x = none) := by
  have hp := create_binning_pairwise ref nBins
  have hiff : ∀ x i, assignBin (create_binning ref nBins) x = some i ↔
      covers (create_binning ref nBins).boundaries i x :=
    fun x i => assignBinAux_some_iff x _ hp i
  have hgtlast : ∀ x m,
      (create_binning ref nBins).boundaries.getLast? = some m →
      m < x → assignBin (create_binning ref nBins) x = none := by
    intro x m hm hx
    cases h : assignBin (create_binning ref nBins) x with
    | none => rfl
    | some i =>
      exfalso
      obtain ⟨lo, hi, h1, h2, h3, h4⟩ := (hiff x i).mp h
      have hxhi : x ≤ hi := by
        split at h4
        · exact h4
        · exact le_of_lt h4
      have hhm : hi ≤ m := getElem?_le_getLast hp h2 hm
      linarith
  refine ⟨hp, hiff, ?_, hgtlast, ?_, ?_⟩
  · intro x i j hi hj
    have h1 := (hiff x i).mpr hi
    have h2 := (hiff x j).mpr hj
    rw [h1] at h2
    exact Option.some_inj.mp h2
  · intro x m hm hx
    cases h : assignBin (create_binning ref nBins) x with
    | none => rfl
    | some i =>
      exfalso
      obtain ⟨lo, hi, h1, h2, h3, h4⟩ := (hiff x i).mp h
      have hml : m ≤ lo := getElem?_ge_head hp h1 hm
      linarith
  · intro x hnb hne hmax
    set sorted := List.insertionSort (· ≤ ·) (cleanOne ref) with hsorted
    set cuts := (List.range (nBins + 1)).map
      (fun (j : ℕ) => percentileInterp sorted (100 * (j : ℚ) / (nBins : ℚ)))
      with hcuts
    have hbnd : (create_binning ref nBins).boundaries =
        cuts.destutter (· < ·) := by
      rw [hcuts, hsorted]
      rfl
    have hcne : cuts ≠ [] := by simp [hcuts]
    have hbne : (create_binning ref nBins).boundaries ≠ [] := by
      rw [hbnd]
      simpa [List.destutter_eq_nil] using hcne
    obtain ⟨m, hm⟩ : ∃ m,
        (create_binning ref nBins).boundaries.getLast? = some m :=
      ⟨_, List.getLast?_eq_getLast_of_ne_nil hbne⟩
    have hmmem : m ∈ cuts := by
      have h1 : m ∈ (create_binning ref nBins).boundaries :=
        List.mem_of_mem_getLast? (Option.mem_def.mpr hm)
      rw [hbnd] at h1
      exact (List.destutter_sublist (· < ·) cuts).subset h1
    obtain ⟨j, hj, hjm⟩ := List.mem_map.mp hmmem
    have hjle : (j : ℚ) ≤ (nBins : ℚ) := by
      exact_mod_cast Nat.lt_succ_iff.mp (List.mem_range.mp hj)
    have hnbpos : (0 : ℚ) < (nBins : ℚ) := by exact_mod_cast hnb
    have hple : 100 * (j : ℚ) / (nBins : ℚ) ≤ 100 := by
      rw [div_le_iff₀ hnbpos]
      nlinarith
    have hp0 : 0 ≤ 100 * (j : ℚ) / (nBins : ℚ) := by positivity
    have hm100 := percentileInterp_mono sorted
      (List.sorted_insertionSort (· ≤ ·) (cleanOne ref)) _ 100 hp0 hple
      le_rfl
    rw [hjm, percentileInterp_hundred] at hm100
    have hslt : sorted.length - 1 < sorted.length := by
      have h0 : 0 < sorted.length := by
        rw [hsorted, List.length_insertionSort]
        exact List.length_pos.mpr hne
      omega
    have hlget : sorted.getD (sorted.length - 1) 0 =
        sorted.get ⟨sorted.length - 1, hslt⟩ := by
      rw [List.getD_eq_getElem?_getD, List.getElem?_eq_getElem hslt]
      simp [List.get_eq_getElem]
    have hrmem : sorted.getD (sorted.length - 1) 0 ∈ cleanOne ref := by
      rw [hlget]
      have hmem : sorted.get ⟨sorted.length - 1, hslt⟩ ∈ sorted :=
        List.get_mem sorted (sorted.length - 1) hslt
      have hperm : sorted.Perm (cleanOne ref) := by
        rw [hsorted]
        exact List.perm_insertionSort _ _
      exact hperm.mem_iff.mp hmem
    exact hgtlast x m hm (lt_of_le_of_lt hm100 (hmax _ hrmem))

unseal Rat.add Rat.sub Rat.mul Rat.inv in
/-- Witness for C2 at the spec's concrete scenario: the reference sample
`[0.2, 1.4, 2.9, 3.1, 8.7]` fitted with two bins assigns `9.0` (beyond the
observed max `8.7`) to the catch-all bin. -/
theorem c2_binning_invariants_witness :
    assignBin (create_binning [some (2/10), some (14/10), some (29/10),
      some (31/10), some (87/10)] 2) 9 = none :=
  (c2_binning_invariants [some (2/10), some (14/10), some (29/10),
      some (31/10), some (87/10)] 2).2.2.2.2.2 9 (by decide) (by decide)
    (by decide)

/-- C6: `delta` fails with a distinguishable error exactly when its input is
invalid: the call errors iff a cleaned sample is empty, the percentile list
is empty or has an entry outside `[0, 100]`, or the bootstrap path is taken
with a resample count below 1; and each of these conditions is reported with
its own error constructor (domain error for empty samples, parameter error
for percentiles, bootstrap-count error for the resample count) — never a
silent default. -/
theorem c6_error_conditions (sqrtFn tppf : ℚ → ℚ) (randT randC : ℕ → ℕ → ℕ)
    (t c : Sample) (ps : List ℚ) (an : Bool) (n : ℕ) :
    ((∃ e, delta sqrtFn tppf randT randC t c ps an n = .error e) ↔
      (cleanOne t = [] ∨ cleanOne c = [] ∨ ps = [] ∨
        (∃ p ∈ ps, p < 0 ∨ 100 < p) ∨ (an = false ∧ n = 0))) ∧
    ((cleanOne t = [] ∨ cleanOne c = []) →
      delta sqrtFn tppf randT randC t c ps an n = .error .emptySample) ∧
    (cleanOne t ≠ [] → cleanOne c ≠ [] →
      (ps = [] ∨ ∃ p ∈ ps, p < 0 ∨ 100 < p) →
      delta sqrtFn tppf randT randC t c ps an n = .error .invalidPercentiles) ∧
    (cleanOne t ≠ [] → cleanOne c ≠ [] → percentilesOK ps = true →
      an = false → n = 0 →
      delta sqrtFn tppf randT randC t c ps an n =
        .error .invalidBootstrapCount) := by
  have h_empty : (cleanOne t = [] ∨ cleanOne c = []) →
      delta sqrtFn tppf randT randC t c ps an n = .error .emptySample := by
    intro h
    unfold delta
    rw [if_pos (by rcases h with h | h <;> simp [h])]
  have h_ps : cleanOne t ≠ [] → cleanOne c ≠ [] → percentilesOK ps = false →
      delta sqrtFn tppf randT randC t c ps an n =
        .error .invalidPercentiles := by
    intro hx hy hbad
    unfold delta
    rw [if_neg (by simp [hx, hy]), if_pos (by simp [hbad])]
  have h_boot : cleanOne t ≠ [] → cleanOne c ≠ [] →
      percentilesOK ps = true → an = false → n = 0 →
      delta sqrtFn tppf randT randC t c ps an n =
        .error .invalidBootstrapCount := by
    intro hx hy hok han hn
    unfold delta
    rw [if_neg (by simp [hx, hy]), if_neg (by simp [hok]),
      if_pos (by simp [han, hn])]
  have h_ok : cleanOne t ≠ [] → cleanOne c ≠ [] → percentilesOK ps = true →
      ¬(an = false ∧ n = 0) →
      ∃ r, delta sqrtFn tppf randT randC t c ps an n = .ok r := by
    intro hx hy hok hbn
    unfold delta
    rw [if_neg (by simp [hx, hy]), if_neg (by simp [hok]), if_neg ?_]
    · exact ⟨_, rfl⟩
    · cases an
      · simp only [Bool.not_false, Bool.true_and, Bool.and_eq_true,
          beq_iff_eq]
        exact fun hn => hbn ⟨rfl, hn⟩
      · simp
  refine ⟨⟨?_, ?_⟩, h_empty,
    fun hx hy hbad => h_ps hx hy ((percentilesOK_false_iff ps).mpr hbad),
    h_boot⟩
  · rintro ⟨e, he⟩
    by_contra hcon
    push_neg at hcon
    obtain ⟨h1, h2, h3, h4, h5⟩ := hcon
    have hok : percentilesOK ps = true := by
      cases hpo : percentilesOK ps
      · rcases (percentilesOK_false_iff ps).mp hpo with h | ⟨p, hp, hlt⟩
        · exact absurd h h3
        · exact absurd hlt (by simpa using h4 p hp)
      · rfl
    obtain ⟨r, hr⟩ := h_ok h1 h2 hok (fun ⟨ha, hn⟩ => (h5 ha) hn)
    rw [he] at hr
    exact absurd hr (by simp)
  · rintro (h | h | h | h | h)
    · exact ⟨_, h_empty (Or.inl h)⟩
    · exact ⟨_, h_empty (Or.inr h)⟩
    · by_cases hx : cleanOne t = []
      · exact ⟨_, h_empty (Or.inl hx)⟩
      by_cases hy : cleanOne c = []
      · exact ⟨_, h_empty (Or.inr hy)⟩
      exact ⟨_, h_ps hx hy ((percentilesOK_false_iff ps).mpr (Or.inl h))⟩
    · by_cases hx : cleanOne t = []
      · exact ⟨_, h_empty (Or.inl hx)⟩
      by_cases hy : cleanOne c = []
      · exact ⟨_, h_empty (Or.inr hy)⟩
      exact ⟨_, h_ps hx hy ((percentilesOK_false_iff ps).mpr (Or.inr h))⟩
    · obtain ⟨han, hn⟩ := h
      by_cases hx : cleanOne t = []
      · exact ⟨_, h_empty (Or.inl hx)⟩
      by_cases hy : cleanOne c = []
      · exact ⟨_, h_empty (Or.inr hy)⟩
      cases hpo : percentilesOK ps
      · exact ⟨_, h_ps hx hy hpo⟩
      · exact ⟨_, h_boot hx hy hpo han hn⟩

unseal Rat.add Rat.sub Rat.mul Rat.inv in
/-- Witness for C6: each error kind at a concrete invalid input. -/
theorem c6_error_conditions_witness :
    delta id id (fun _ _ => 0) (fun _ _ => 0) [none] [some 1] [5/2] true 1
      = .error .emptySample ∧
    delta id id (fun _ _ => 0) (fun _ _ => 0) [some 1] [some 1] [] true 1
      = .error .invalidPercentiles ∧
    delta id id (fun _ _ => 0) (fun _ _ => 0) [some 1] [some 1] [5/2] false 0
      = .error .invalidBootstrapCount :=
  ⟨(c6_error_conditions id id (fun _ _ => 0) (fun _ _ => 0)
      [none] [some 1] [5/2] true 1).2.1 (Or.inl (by decide)),
   (c6_error_conditions id id (fun _ _ => 0) (fun _ _ => 0)
      [some 1] [some 1] [] true 1).2.2.1 (by decide) (by decide)
      (Or.inl rfl),
   (c6_error_conditions id id (fun _ _ => 0) (fun _ _ => 0)
      [some 1] [some 1] [5/2] false 0).2.2.2 (by decide) (by decide)
      (by decide) rfl rfl⟩

/-- C4: under the closed-form path, for every percentile pair `(p, 100 - p)`
requested together, the two reported confidence-interval values are symmetric
about delta: their midpoint equals delta.  The t-distribution quantile
function of the external statistics library is odd about the median, which is
the `hodd` hypothesis. -/
theorem c4_pair_symmetric_about_delta (sqrtFn tppf : ℚ → ℚ)
    (randT randC : ℕ → ℕ → ℕ) (t c : Sample) (ps : List ℚ) (n : ℕ)
    (r : DeltaResult) (p v1 v2 : ℚ)
    (hodd : ∀ q : ℚ, tppf (100 - q) = - tppf q)
    (hres : delta sqrtFn tppf randT randC t c ps true n = .ok r)
    (h1 : (p, v1) ∈ r.confidence_interval)
    (h2 : (100 - p, v2) ∈ r.confidence_interval) :
    (v1 + v2) / 2 = r.delta := by
  obtain ⟨-, -, -, hd, hci, -⟩ :=
    delta_ok_elim sqrtFn tppf randT randC t c ps true n r hres
  rw [if_pos rfl] at hci
  rw [hci] at h1 h2
  have hsum := closedFormCI_pair_sum tppf ps
    (mean (cleanOne t) - mean (cleanOne c))
    (sqrtFn (seSq (cleanOne t) (cleanOne c))) p v1 v2 hodd h1 h2
  rw [hd]
  linarith

unseal Rat.add Rat.sub Rat.mul Rat.inv in
/-- Witness for C4 at a concrete closed-form call. -/
theorem c4_pair_symmetric_about_delta_witness :
    ((-107 : ℚ)/8 + 83/8) / 2 =
      (DeltaResult.mk (-3/2) [(5/2, -107/8), (195/2, 83/8)] 2 1 (3/2) 3
        [.varianceHeterogeneity]).delta :=
  c4_pair_symmetric_about_delta id (fun q => q - 50) (fun _ _ => 0)
    (fun _ _ => 0) [some 1, some 2] [some 3] [5/2, 195/2] 1
    ⟨-3/2, [(5/2, -107/8), (195/2, 83/8)], 2, 1, 3/2, 3,
      [.varianceHeterogeneity]⟩ (5/2) (-107/8) (83/8)
    (fun q => show (100 : ℚ) - q - 50 = -(q - 50) by ring)
    (by decide) (by decide) (by decide)

/-- C7: under the closed-form path, when the sample variances are too
heterogeneous, `delta` still succeeds and attaches the advisory
variance-heterogeneity warning to the returned result — the warning never
stops the computation of the numeric result. -/
theorem c7_variance_warning (sqrtFn tppf : ℚ → ℚ) (randT randC : ℕ → ℕ → ℕ)
    (t c : Sample) (ps : List ℚ) (n : ℕ)
    (hx : (cleanOne t).isEmpty = false) (hy : (cleanOne c).isEmpty = false)
    (hps : percentilesOK ps = true)
    (hhet : varianceHeterogeneous (cleanOne t) (cleanOne c) = true) :
    ∃ r : DeltaResult,
      delta sqrtFn tppf randT randC t c ps true n = .ok r ∧
      StatWarning.varianceHeterogeneity ∈ r.warnings ∧
      r.delta = mean (cleanOne t) - mean (cleanOne c) := by
  unfold delta
  rw [if_neg (by simp [hx, hy]), if_neg (by simp [hps]), if_neg (by simp)]
  exact ⟨_, rfl, by simp [hhet], rfl⟩

unseal Rat.add Rat.sub Rat.mul Rat.inv in
/-- Witness for C7 at concrete heteroskedastic samples. -/
theorem c7_variance_warning_witness :
    ∃ r : DeltaResult,
      delta id (fun q => q - 50) (fun _ _ => 0) (fun _ _ => 0)
        [some 0, some 4] [some 0, some 1] [5/2, 195/2] true 1 = .ok r ∧
      StatWarning.varianceHeterogeneity ∈ r.warnings ∧
      r.delta = mean (cleanOne [some 0, some 4]) -
        mean (cleanOne [some 0, some 1]) :=
  c7_variance_warning id (fun q => q - 50) (fun _ _ => 0) (fun _ _ => 0)
    [some 0, some 4] [some 0, some 1] [5/2, 195/2] 1
    (by decide) (by decide) (by decide) (by decide)

/-- C10: when `delta` is called without an explicit percentiles argument, the
confidence interval contains exactly the percentiles 2.5 and 97.5, in that
order, under both the closed-form and the bootstrap path. -/
theorem c10_default_percentiles (sqrtFn tppf : ℚ → ℚ)
    (randT randC : ℕ → ℕ → ℕ) (t c : Sample) (an : Bool) (n : ℕ)
    (r : DeltaResult)
    (hres : deltaDefault sqrtFn tppf randT randC t c an n = .ok r) :
    r.confidence_interval.map Prod.fst = [5/2, 195/2] := by
  unfold deltaDefault at hres
  obtain ⟨-, -, -, -, hci, -⟩ :=
    delta_ok_elim sqrtFn tppf randT randC t c defaultPercentiles an n r hres
  rw [hci]
  cases an <;>
    simp [closedFormCI_map_fst, bootstrapCI_map_fst, defaultPercentiles]

unseal Rat.add Rat.sub Rat.mul Rat.inv in
/-- Witness for C10 at a concrete call. -/
theorem c10_default_percentiles_witness :
    (DeltaResult.mk 0 [(5/2, -95/4), (195/2, 95/4)] 2 2 (3/2) (3/2)
      []).confidence_interval.map Prod.fst = [5/2, 195/2] :=
  c10_default_percentiles id (fun q => q - 50) (fun _ _ => 0) (fun _ _ => 0)
    [some 1, some 2] [some 1, some 2] true 1
    ⟨0, [(5/2, -95/4), (195/2, 95/4)], 2, 2, 3/2, 3/2, []⟩ (by decide)

/-- C9: in every DeltaResult returned by `delta`, the confidence interval is
an ordered sequence of (percentile, value) pairs with exactly one pair per
requested percentile (in request order), and the values are monotonically
non-decreasing as the percentile increases, under both the closed-form and
the bootstrap path.  The external t-quantile is monotone and the external
square root is nonnegative — the `hmono` / `hsqrt` hypotheses. -/
theorem c9_ci_shape_monotone (sqrtFn tppf : ℚ → ℚ)
    (randT randC : ℕ → ℕ → ℕ) (t c : Sample) (ps : List ℚ) (an : Bool)
    (n : ℕ) (r : DeltaResult)
    (hmono : ∀ a b : ℚ, a ≤ b → tppf a ≤ tppf b)
    (hsqrt : ∀ q : ℚ, 0 ≤ sqrtFn q)
    (hres : delta sqrtFn tppf randT randC t c ps an n = .ok r) :
    r.confidence_interval.map Prod.fst = ps ∧
    (∀ p1 v1 p2 v2, (p1, v1) ∈ r.confidence_interval →
      (p2, v2) ∈ r.confidence_interval → p1 ≤ p2 → v1 ≤ v2) := by
  obtain ⟨hOK, -, -, -, hci, -⟩ :=
    delta_ok_elim sqrtFn tppf randT randC t c ps an n r hres
  have hbounds := (percentilesOK_iff ps).mp hOK
  constructor
  · rw [hci]
    cases an <;> simp [closedFormCI_map_fst, bootstrapCI_map_fst]
  · intro p1 v1 p2 v2 h1 h2 hp12
    rw [hci] at h1 h2
    cases an with
    | false =>
      rw [if_neg Bool.false_ne_true] at h1 h2
      simp only [bootstrapCI, List.mem_map, Prod.mk.injEq] at h1 h2
      obtain ⟨q1, hq1m, hq1, hv1⟩ := h1
      obtain ⟨q2, hq2m, hq2, hv2⟩ := h2
      rw [← hv1, ← hv2, hq1, hq2]
      have hm1 : p1 ∈ ps := hq1 ▸ hq1m
      have hm2 : p2 ∈ ps := hq2 ▸ hq2m
      exact percentileInterp_mono _ (List.sorted_insertionSort _ _) p1 p2
        (hbounds.2 p1 hm1).1 hp12 (hbounds.2 p2 hm2).2
    | true =>
      rw [if_pos rfl] at h1 h2
      simp only [closedFormCI, List.mem_map, Prod.mk.injEq] at h1 h2
      obtain ⟨q1, hq1m, hq1, hv1⟩ := h1
      obtain ⟨q2, hq2m, hq2, hv2⟩ := h2
      rw [← hv1, ← hv2, hq1, hq2]
      have hse := hsqrt (seSq (cleanOne t) (cleanOne c))
      have hle := mul_le_mul_of_nonneg_right (hmono p1 p2 hp12) hse
      linarith

unseal Rat.add Rat.sub Rat.mul Rat.inv in
/-- Witness for C9 at a concrete closed-form call. -/
theorem c9_ci_shape_monotone_witness :
    (DeltaResult.mk 0 [(5/2, 0), (195/2, 0)] 2 2 (3/2) (3/2)
      []).confidence_interval.map Prod.fst = [5/2, 195/2] :=
  (c9_ci_shape_monotone (fun _ => 0) id (fun _ _ => 0) (fun _ _ => 0)
    [some 1, some 2] [some 1, some 2] [5/2, 195/2] true 1
    ⟨0, [(5/2, 0), (195/2, 0)], 2, 2, 3/2, 3/2, []⟩
    (fun a b h => h) (fun _ => le_refl 0) (by decide)).1

/-- C1 (amended): comparing a sample against itself yields `delta == 0`
exactly, under both the closed-form and the bootstrap path; under the
closed-form path the confidence interval is moreover symmetric around 0
(values of a percentile pair `(p, 100 - p)` sum to 0).  The bootstrap
interval need not be exactly symmetric, see the counterexample. -/
theorem c1_self_comparison (sqrtFn tppf : ℚ → ℚ) (randT randC : ℕ → ℕ → ℕ)
    (S : Sample) (ps : List ℚ) (an : Bool) (n : ℕ) (r : DeltaResult)
    (hodd : ∀ q : ℚ, tppf (100 - q) = - tppf q)
    (hres : delta sqrtFn tppf randT randC S S ps an n = .ok r) :
    r.delta = 0 ∧
    (an = true → ∀ p v1 v2, (p, v1) ∈ r.confidence_interval →
      (100 - p, v2) ∈ r.confidence_interval → v1 + v2 = 0) := by
  obtain ⟨-, -, -, hd, hci, -⟩ :=
    delta_ok_elim sqrtFn tppf randT randC S S ps an n r hres
  have hd0 : r.delta = 0 := by rw [hd]; ring
  refine ⟨hd0, ?_⟩
  rintro rfl p v1 v2 h1 h2
  rw [if_pos rfl] at hci
  rw [hci] at h1 h2
  have hsum := closedFormCI_pair_sum tppf ps
    (mean (cleanOne S) - mean (cleanOne S))
    (sqrtFn (seSq (cleanOne S) (cleanOne S))) p v1 v2 hodd h1 h2
  rw [hsum]
  ring

unseal Rat.add Rat.sub Rat.mul Rat.inv in
/-- Witness for C1 at a concrete closed-form self-comparison. -/
theorem c1_self_comparison_witness :
    (DeltaResult.mk 0 [(5/2, -95/4), (195/2, 95/4)] 2 2 (3/2) (3/2)
      []).delta = 0 ∧ ((-95 : ℚ)/4 + 95/4 = 0) := by
  have h := c1_self_comparison id (fun q => q - 50) (fun _ _ => 0)
    (fun _ _ => 0) [some 1, some 2] [5/2, 195/2] true 1
    ⟨0, [(5/2, -95/4), (195/2, 95/4)], 2, 2, 3/2, 3/2, []⟩
    (fun q => show (100 : ℚ) - q - 50 = -(q - 50) by ring) (by decide)
  exact ⟨h.1, h.2 rfl (5/2) (-95/4) (95/4) (by decide) (by decide)⟩

unseal Rat.add Rat.sub Rat.mul Rat.inv in
/-- C1 counterexample: a concrete bootstrap run comparing a sample against
itself, with an explicit randomness source.  The delta is exactly 0, but the
reported 2.5%/97.5% confidence-interval values are 0 and 19/15, which are not
symmetric around 0 — refuting the claim that the bootstrap-path interval is
symmetric about 0.  (The notebook's own printed bootstrap output for A vs. A
likewise shows the asymmetric interval [-6.4517…, 6.4121…].) -/
theorem c1_self_bootstrap_not_symmetric :
    delta id (fun q => q - 50) (fun k j => k + 2 * j + 1) (fun k j => k * j + k)
        [some 1, some 2, some 4] [some 1, some 2, some 4] [5/2, 195/2] false 3
      = .ok ⟨0, [(5/2, 0), (195/2, 19/15)], 3, 3, 7/3, 7/3, []⟩ ∧
    ¬ ((0 : ℚ) + 19/15 = 0) :=
  ⟨by decide, by decide⟩

end Expan
